import Mathlib

/-!
Verification of the mindball streaming pipeline (`src/websocket.py`).

The file shallowly embeds the pure fragments of the Python source:

* the module constants `FS`, `WINDOW`, `OVERLAP`, `BETA_MIN_F`, `BETA_MAX_F`;
* the Normalizer part of `process_block` (lines 34-39), modelled over exact
  rationals (every IEEE double is a rational, and `min`, `max`, `==` and
  `round` act on the exact value of their float arguments);
* the sliding-window extraction loop of `audio_loop` (lines 47-49);
* the spectral part of `process_block` (lines 28-33), over real/complex
  numbers;
* the fan-out `broadcast` (lines 11-18), with a client's failing `send`
  modelled by a boolean predicate.
-/

/-- Sample rate, `FS = 44100` (line 3 of the source). -/
def FS : ℕ := 44100

/-- Analysis window length in samples, `WINDOW = 44100` (line 4). -/
def WINDOW : ℕ := 44100

/-- Hop size, `OVERLAP = WINDOW // 2` (line 5). -/
def OVERLAP : ℕ := WINDOW / 2

/-- Lower edge of the beta band, `BETA_MIN_F = 12` (line 6). -/
def BETA_MIN_F : ℚ := 12

/-- Upper edge of the beta band, `BETA_MAX_F = 30` (line 6). -/
def BETA_MAX_F : ℚ := 30

/-! ## Normalizer (lines 34-39 of `process_block`) -/

/-- Python's `round` on a float with no `ndigits` argument: round half to
even, here on the exact rational value. -/
def pyRound (q : ℚ) : ℤ :=
  if q - ⌊q⌋ < 1/2 then ⌊q⌋
  else if 1/2 < q - ⌊q⌋ then ⌊q⌋ + 1
  else if Even ⌊q⌋ then ⌊q⌋ else ⌊q⌋ + 1

/-- Line 34: `min_b = beta_power if min_b is None else min(min_b, beta_power)`. -/
def updMin (x : ℚ) : Option ℚ → ℚ
  | none => x
  | some m => min m x

/-- Line 35: `max_b = beta_power if max_b is None else max(max_b, beta_power)`. -/
def updMax (x : ℚ) : Option ℚ → ℚ
  | none => x
  | some m => max m x

/-- Lines 34-39 of `process_block`: the Normalizer update.  Given the current
band-power sample `x` and the running bounds, widen the bounds, suppress the
output when the range is degenerate, and otherwise emit
`int(round((x - min_b) / (max_b - min_b) * 100))`. -/
def normUpdate (x : ℚ) (min_b max_b : Option ℚ) : Option ℤ × ℚ × ℚ :=
  if updMax x max_b = updMin x min_b then
    (none, updMin x min_b, updMax x max_b)
  else
    (some (pyRound ((x - updMin x min_b) / (updMax x max_b - updMin x min_b) * 100)),
      updMin x min_b, updMax x max_b)

/-- Outputs of feeding a list of band-power samples through the Normalizer,
threading `(min_beta, max_beta)` exactly as `audio_loop` does (lines 43, 50). -/
def normRun (min_b max_b : Option ℚ) : List ℚ → List (Option ℤ)
  | [] => []
  | x :: rest =>
      (normUpdate x min_b max_b).1 ::
        normRun (some (normUpdate x min_b max_b).2.1)
          (some (normUpdate x min_b max_b).2.2) rest

/-- Final `(min_beta, max_beta)` state after feeding a list of samples. -/
def normState (min_b max_b : Option ℚ) : List ℚ → Option ℚ × Option ℚ
  | [] => (min_b, max_b)
  | x :: rest =>
      normState (some (normUpdate x min_b max_b).2.1)
        (some (normUpdate x min_b max_b).2.2) rest

lemma floor_le_pyRound (q : ℚ) : ⌊q⌋ ≤ pyRound q := by
  unfold pyRound
  split
  · exact le_refl _
  · split
    · omega
    · split <;> omega

lemma pyRound_le_floor_add_one (q : ℚ) : pyRound q ≤ ⌊q⌋ + 1 := by
  unfold pyRound
  split
  · omega
  · split
    · omega
    · split <;> omega

lemma le_pyRound {n : ℤ} {q : ℚ} (h : (n : ℚ) ≤ q) : n ≤ pyRound q :=
  le_trans (Int.le_floor.mpr h) (floor_le_pyRound q)

lemma pyRound_le_of_le {n : ℤ} {q : ℚ} (h : q ≤ (n : ℚ)) : pyRound q ≤ n := by
  have hf : ⌊q⌋ ≤ n := by
    have h2 := Int.floor_mono h
    rwa [Int.floor_intCast] at h2
  rcases lt_or_eq_of_le hf with hlt | heq
  · have h2 := pyRound_le_floor_add_one q
    omega
  · have h3 := Int.floor_le q
    rw [heq] at h3
    have hq : q = (n : ℚ) := le_antisymm h h3
    subst hq
    unfold pyRound
    rw [Int.floor_intCast]
    norm_num

lemma updMin_le (x : ℚ) (m0 : Option ℚ) : updMin x m0 ≤ x := by
  cases m0 with
  | none => exact le_refl x
  | some m => exact min_le_right m x

lemma le_updMax (x : ℚ) (M0 : Option ℚ) : x ≤ updMax x M0 := by
  cases M0 with
  | none => exact le_refl x
  | some m => exact le_max_right m x

lemma updMin_le_left (x m : ℚ) : updMin x (some m) ≤ m := min_le_left m x

lemma le_updMax_left (x M : ℚ) : M ≤ updMax x (some M) := le_max_left M x

lemma normUpdate_min (x : ℚ) (m0 M0 : Option ℚ) :
    (normUpdate x m0 M0).2.1 = updMin x m0 := by
  unfold normUpdate
  split <;> rfl

lemma normUpdate_max (x : ℚ) (m0 M0 : Option ℚ) :
    (normUpdate x m0 M0).2.2 = updMax x M0 := by
  unfold normUpdate
  split <;> rfl

/-- The very first sample makes both bounds equal to it and is suppressed. -/
lemma normUpdate_first (x : ℚ) : normUpdate x none none = (none, x, x) := by
  unfold normUpdate updMin updMax
  simp

/-- Re-feeding the sample the bounds already agree on is suppressed. -/
lemma normUpdate_const (s : ℚ) : normUpdate s (some s) (some s) = (none, s, s) := by
  unfold normUpdate updMin updMax
  simp

lemma normRun_const (s : ℚ) :
    ∀ n : ℕ, normRun (some s) (some s) (List.replicate n s) = List.replicate n none := by
  intro n
  induction n with
  | zero => rfl
  | succ n ih =>
      simp [List.replicate_succ, normRun, normUpdate_const, ih]

/-- Claim C1: whenever the Normalizer update returns a value, that value is an
integer in `[0, 100]`, and it equals
`round((sample - min_seen) / (max_seen - min_seen) * 100)` computed with the
bounds already widened by the current sample. -/
theorem claim1_norm_range : ∀ (x : ℚ) (m0 M0 : Option ℚ) (v : ℤ),
    (normUpdate x m0 M0).1 = some v →
    (0 ≤ v ∧ v ≤ 100) ∧
      v = pyRound ((x - (normUpdate x m0 M0).2.1) /
            ((normUpdate x m0 M0).2.2 - (normUpdate x m0 M0).2.1) * 100) := by
  intro x m0 M0 v h
  have hm : updMin x m0 ≤ x := updMin_le x m0
  have hM : x ≤ updMax x M0 := le_updMax x M0
  by_cases hc : updMax x M0 = updMin x m0
  · unfold normUpdate at h
    rw [if_pos hc] at h
    simp at h
  · have hlt : updMin x m0 < updMax x M0 :=
      lt_of_le_of_ne (le_trans hm hM) (Ne.symm hc)
    have hv : pyRound ((x - updMin x m0) / (updMax x M0 - updMin x m0) * 100) = v := by
      unfold normUpdate at h
      rw [if_neg hc] at h
      simpa using h
    have hden : (0:ℚ) < updMax x M0 - updMin x m0 := sub_pos.mpr hlt
    have hr0 : (0:ℚ) ≤ (x - updMin x m0) / (updMax x M0 - updMin x m0) :=
      div_nonneg (sub_nonneg.mpr hm) (le_of_lt hden)
    have hr1 : (x - updMin x m0) / (updMax x M0 - updMin x m0) ≤ 1 := by
      rw [div_le_one hden]
      exact sub_le_sub_right hM _
    have h0 : (0:ℚ) ≤ (x - updMin x m0) / (updMax x M0 - updMin x m0) * 100 := by
      linarith
    have h100 : (x - updMin x m0) / (updMax x M0 - updMin x m0) * 100 ≤ 100 := by
      linarith
    refine ⟨⟨?_, ?_⟩, ?_⟩
    · rw [← hv]
      exact le_pyRound (by exact_mod_cast h0)
    · rw [← hv]
      exact pyRound_le_of_le (by exact_mod_cast h100)
    · rw [normUpdate_min, normUpdate_max]
      exact hv.symm

/-- Witness for C1: updating with sample 3 on bounds (1, 5) yields 50. -/
theorem claim1_norm_range_witness :
    (0 ≤ (50:ℤ) ∧ (50:ℤ) ≤ 100) ∧
      (50:ℤ) = pyRound ((3 - (normUpdate 3 (some 1) (some 5)).2.1) /
        ((normUpdate 3 (some 1) (some 5)).2.2 - (normUpdate 3 (some 1) (some 5)).2.1) * 100) :=
  claim1_norm_range 3 (some 1) (some 5) 50
    (by norm_num [normUpdate, updMin, updMax, pyRound, min_def, max_def])

/-- Claim C3: for every sequence of band-power samples (an arbitrary already
processed prefix `pre` followed by the next sample `s`), the bounds bracket the
sample just observed, and they are monotone from one update to the next:
`min_seen` never increases and `max_seen` never decreases. -/
theorem claim3_norm_monotone : ∀ (pre : List ℚ) (s : ℚ),
    ((normUpdate s (normState none none pre).1 (normState none none pre).2).2.1 ≤ s ∧
      s ≤ (normUpdate s (normState none none pre).1 (normState none none pre).2).2.2) ∧
    (∀ m, (normState none none pre).1 = some m →
      (normUpdate s (normState none none pre).1 (normState none none pre).2).2.1 ≤ m) ∧
    (∀ M, (normState none none pre).2 = some M →
      M ≤ (normUpdate s (normState none none pre).1 (normState none none pre).2).2.2) := by
  intro pre s
  simp only [normUpdate_min, normUpdate_max]
  refine ⟨⟨updMin_le _ _, le_updMax _ _⟩, fun m hm => ?_, fun M hM => ?_⟩
  · rw [hm]
    exact updMin_le_left _ _
  · rw [hM]
    exact le_updMax_left _ _

/-- Witness for C3 at prefix `[2, 5]` and next sample `3`. -/
theorem claim3_norm_monotone_witness :
    ((normUpdate 3 (normState none none [2, 5]).1 (normState none none [2, 5]).2).2.1 ≤ 3 ∧
      (3:ℚ) ≤ (normUpdate 3 (normState none none [2, 5]).1 (normState none none [2, 5]).2).2.2) ∧
    (normUpdate 3 (normState none none [2, 5]).1 (normState none none [2, 5]).2).2.1 ≤ 2 ∧
    (5:ℚ) ≤ (normUpdate 3 (normState none none [2, 5]).1 (normState none none [2, 5]).2).2.2 :=
  ⟨(claim3_norm_monotone [2, 5] 3).1,
    (claim3_norm_monotone [2, 5] 3).2.1 2
      (by norm_num [normState, normUpdate_min, normUpdate_max, updMin, updMax, min_def, max_def]),
    (claim3_norm_monotone [2, 5] 3).2.2 5
      (by norm_num [normState, normUpdate_min, normUpdate_max, updMin, updMax, min_def, max_def])⟩

/-- Claim C4: the update returns no value exactly when `max_seen == min_seen`
after widening; the very first sample sets both bounds to itself and yields no
output; and a constant sample sequence yields no output forever. -/
theorem claim4_norm_degenerate :
    (∀ (x : ℚ) (m0 M0 : Option ℚ),
      (normUpdate x m0 M0).1 = none ↔
        (normUpdate x m0 M0).2.2 = (normUpdate x m0 M0).2.1) ∧
    (∀ x : ℚ, normUpdate x none none = (none, x, x)) ∧
    (∀ (s : ℚ) (n : ℕ),
      normRun none none (List.replicate n s) = List.replicate n none) := by
  refine ⟨?_, normUpdate_first, ?_⟩
  · intro x m0 M0
    unfold normUpdate
    split <;> simp_all
  · intro s n
    cases n with
    | zero => rfl
    | succ n =>
        simp [List.replicate_succ, normRun, normUpdate_first, normRun_const s n]

/-- Witness for C4: bounds already equal, so the output is suppressed. -/
theorem claim4_norm_degenerate_witness : (normUpdate 2 (some 2) (some 2)).1 = none :=
  (claim4_norm_degenerate.1 2 (some 2) (some 2)).mpr
    (by norm_num [normUpdate, updMin, updMax, min_def, max_def])

lemma normRun_all_some : ∀ (rest : List ℚ) (m M : ℚ), m < M →
    ∀ o ∈ normRun (some m) (some M) rest, o ≠ none := by
  intro rest
  induction rest with
  | nil =>
      intro m M _ o ho
      simp [normRun] at ho
  | cons x rest ih =>
      intro m M hmM o ho
      have hmin : updMin x (some m) ≤ m := updMin_le_left x m
      have hmax : M ≤ updMax x (some M) := le_updMax_left x M
      have hlt : updMin x (some m) < updMax x (some M) :=
        lt_of_le_of_lt hmin (lt_of_lt_of_le hmM hmax)
      have hne : updMax x (some M) ≠ updMin x (some m) := ne_of_gt hlt
      simp only [normRun, List.mem_cons] at ho
      rcases ho with h1 | h2
      · rw [h1]
        unfold normUpdate
        rw [if_neg hne]
        simp
      · refine ih ((normUpdate x (some m) (some M)).2.1)
          ((normUpdate x (some m) (some M)).2.2) ?_ o h2
        rw [normUpdate_min, normUpdate_max]
        exact hlt

/-- Claim C10: once the Normalizer has returned a value for some sample, every
subsequent update also returns a value: the widened bounds stay apart, so
output is never suppressed again. -/
theorem claim10_norm_persistent : ∀ (x : ℚ) (m0 M0 : Option ℚ) (v : ℤ),
    (normUpdate x m0 M0).1 = some v →
    ∀ (rest : List ℚ) (o : Option ℤ),
      o ∈ normRun (some (normUpdate x m0 M0).2.1)
            (some (normUpdate x m0 M0).2.2) rest →
      o ≠ none := by
  intro x m0 M0 v h rest o ho
  have hne : updMax x M0 ≠ updMin x m0 := by
    intro hEq
    unfold normUpdate at h
    rw [if_pos hEq] at h
    simp at h
  have hlt : updMin x m0 < updMax x M0 :=
    lt_of_le_of_ne (le_trans (updMin_le x m0) (le_updMax x M0)) (Ne.symm hne)
  rw [normUpdate_min, normUpdate_max] at ho
  exact normRun_all_some rest (updMin x m0) (updMax x M0) hlt o ho

/-- Witness for C10: after a successful update on bounds (1, 5), the next
update (sample 3) also produces a value. -/
theorem claim10_norm_persistent_witness : (normUpdate 3 (some 1) (some 5)).1 ≠ none :=
  claim10_norm_persistent 1 (some 1) (some 5) 0
    (by norm_num [normUpdate, updMin, updMax, pyRound, min_def, max_def]) [3]
    ((normUpdate 3 (some 1) (some 5)).1)
    (by norm_num [normRun, normUpdate_min, normUpdate_max, updMin, updMax, min_def, max_def])

/-! ## WindowAssembler (lines 47-49 of `audio_loop`) -/

/-- The window-extraction loop of `audio_loop` (lines 48-49): while the buffer
holds at least `W` samples, emit `buffer[:W]` as a window and keep
`buffer[OV:]`.  Returns the emitted windows in order and the final buffer.
The positivity guards only rule out the parameter choices on which the
source's `while` loop would never terminate; the program runs it with
`W = WINDOW` and `OV = OVERLAP`. -/
def drain {α : Type} (W OV : ℕ) (buf : List α) : List (List α) × List α :=
  if h : 0 < W ∧ 0 < OV ∧ W ≤ buf.length then
    let r := drain W OV (buf.drop OV)
    (buf.take W :: r.1, r.2)
  else ([], buf)
termination_by buf.length
decreasing_by
  simp only [List.length_drop]
  omega

lemma drain_step {α : Type} (W OV : ℕ) (buf : List α) (hW : 0 < W) (hOV : 0 < OV)
    (hlen : W ≤ buf.length) :
    drain W OV buf =
      (buf.take W :: (drain W OV (buf.drop OV)).1, (drain W OV (buf.drop OV)).2) := by
  conv_lhs => rw [drain]
  rw [dif_pos ⟨hW, hOV, hlen⟩]

lemma drain_done {α : Type} (W OV : ℕ) (buf : List α) (h : buf.length < W) :
    drain W OV buf = ([], buf) := by
  have hne : ¬(0 < W ∧ 0 < OV ∧ W ≤ buf.length) := by omega
  rw [drain, dif_neg hne]

lemma drain_snd_length_lt {α : Type} (W OV : ℕ) (hW : 0 < W) (hOV : 0 < OV)
    (buf : List α) : ((drain W OV buf).2).length < W := by
  have H : ∀ (n : ℕ) (l : List α), l.length ≤ n → ((drain W OV l).2).length < W := by
    intro n
    induction n with
    | zero =>
        intro l hl
        rw [drain_done W OV l (by omega)]
        simpa using by omega
    | succ n ih =>
        intro l hl
        by_cases hlen : W ≤ l.length
        · rw [drain_step W OV l hW hOV hlen]
          exact ih (l.drop OV) (by simp only [List.length_drop]; omega)
        · rw [drain_done W OV l (by omega)]
          simpa using by omega
  exact H buf.length buf le_rfl

/-- Claim C2: the drain loop, while the buffer holds at least `WINDOW`
samples, emits `buffer[0:WINDOW]` as the next window and retains
`buffer[OVERLAP:]`, emitting windows in temporal order (head first); and the
toy-scale scenario with `WINDOW = 4`, `OVERLAP = 2` and the chunks `[1,2]`,
`[3,4]`, `[5,6]` appended in order behaves exactly as stated. -/
theorem claim2_drain :
    (∀ (α : Type) (W OV : ℕ) (buf : List α), 0 < W → 0 < OV → W ≤ buf.length →
        drain W OV buf =
          (buf.take W :: (drain W OV (buf.drop OV)).1, (drain W OV (buf.drop OV)).2)) ∧
    (∀ (α : Type) (W OV : ℕ) (buf : List α), buf.length < W → drain W OV buf = ([], buf)) ∧
    drain 4 2 (([] : List ℕ) ++ [1, 2]) = ([], [1, 2]) ∧
    drain 4 2 (([1, 2] : List ℕ) ++ [3, 4]) = ([[1, 2, 3, 4]], [3, 4]) ∧
    drain 4 2 (([3, 4] : List ℕ) ++ [5, 6]) = ([[3, 4, 5, 6]], [5, 6]) := by
  refine ⟨fun α W OV buf hW hOV hlen => drain_step W OV buf hW hOV hlen,
    fun α W OV buf h => drain_done W OV buf h, ?_, ?_, ?_⟩
  · show drain 4 2 ([1, 2] : List ℕ) = ([], [1, 2])
    exact drain_done 4 2 _ (by decide)
  · show drain 4 2 ([1, 2, 3, 4] : List ℕ) = ([[1, 2, 3, 4]], [3, 4])
    rw [drain_step 4 2 ([1, 2, 3, 4] : List ℕ) (by decide) (by decide) (by decide),
      show ([1, 2, 3, 4] : List ℕ).drop 2 = [3, 4] from rfl,
      show ([1, 2, 3, 4] : List ℕ).take 4 = [1, 2, 3, 4] from rfl,
      drain_done 4 2 ([3, 4] : List ℕ) (by decide)]
  · show drain 4 2 ([3, 4, 5, 6] : List ℕ) = ([[3, 4, 5, 6]], [5, 6])
    rw [drain_step 4 2 ([3, 4, 5, 6] : List ℕ) (by decide) (by decide) (by decide),
      show ([3, 4, 5, 6] : List ℕ).drop 2 = [5, 6] from rfl,
      show ([3, 4, 5, 6] : List ℕ).take 4 = [3, 4, 5, 6] from rfl,
      drain_done 4 2 ([5, 6] : List ℕ) (by decide)]

/-- Witness for C2: one concrete unfolding of the drain loop. -/
theorem claim2_drain_witness :
    drain 4 2 ([1, 2, 3, 4, 5] : List ℕ) =
      (([1, 2, 3, 4, 5] : List ℕ).take 4 :: (drain 4 2 (([1, 2, 3, 4, 5] : List ℕ).drop 2)).1,
        (drain 4 2 (([1, 2, 3, 4, 5] : List ℕ).drop 2)).2) :=
  claim2_drain.1 ℕ 4 2 [1, 2, 3, 4, 5] (by decide) (by decide) (by decide)

/-- Claim C9: after every extraction pass (appending a chunk and running the
drain loop to completion) the sliding buffer is strictly shorter than
`WINDOW`. -/
theorem claim9_buffer_short : ∀ (buf chunk : List ℝ),
    ((drain WINDOW OVERLAP (buf ++ chunk)).2).length < WINDOW :=
  fun buf chunk =>
    drain_snd_length_lt WINDOW OVERLAP (by decide) (by decide) (buf ++ chunk)

/-! ## Broadcaster (lines 11-18) -/

/-- The `for c in clients: try await c.send(msg) except ConnectionClosed:
dead.add(c)` loop (lines 13-17).  Clients are opaque handles (here: naturals),
taken in iteration order; `closed c = true` models `c.send` raising
`ConnectionClosed`.  Returns the clients delivered to, in order, and the
accumulated `dead` set. -/
def broadcastLoop (closed : ℕ → Bool) : List ℕ → List ℕ → List ℕ × List ℕ
  | [], dead => ([], dead)
  | c :: rest, dead =>
      if closed c then broadcastLoop closed rest (dead ++ [c])
      else ((c :: (broadcastLoop closed rest dead).1), (broadcastLoop closed rest dead).2)

/-- `broadcast` (lines 11-18): run the delivery loop over the registry, then
`clients.difference_update(dead)`.  Returns (clients delivered to, the new
registry). -/
def broadcast (closed : ℕ → Bool) (clients : List ℕ) : List ℕ × List ℕ :=
  ((broadcastLoop closed clients []).1,
    clients.filter (fun c => decide (c ∉ (broadcastLoop closed clients []).2)))

lemma broadcastLoop_eq (closed : ℕ → Bool) :
    ∀ (l dead : List ℕ),
      broadcastLoop closed l dead =
        (l.filter (fun c => !closed c), dead ++ l.filter (fun c => closed c)) := by
  intro l
  induction l with
  | nil =>
      intro dead
      simp [broadcastLoop]
  | cons c rest ih =>
      intro dead
      cases hc : closed c with
      | false => simp [broadcastLoop, hc, ih, List.filter_cons]
      | true => simp [broadcastLoop, hc, ih, List.filter_cons, List.append_assoc]

lemma broadcast_eq (closed : ℕ → Bool) (clients : List ℕ) :
    broadcast closed clients =
      (clients.filter (fun c => !closed c), clients.filter (fun c => !closed c)) := by
  unfold broadcast
  rw [broadcastLoop_eq]
  simp only [List.nil_append]
  refine Prod.ext rfl ?_
  refine List.filter_congr ?_
  intro c hc
  cases h : closed c with
  | false =>
      have hmem : c ∉ List.filter (fun c => closed c) clients := by
        simp [List.mem_filter, h]
      simp [hmem, h]
  | true =>
      have hmem : c ∈ List.filter (fun c => closed c) clients := by
        simp [List.mem_filter, hc, h]
      simp [hmem, h]

/-- Claim C6: one `broadcast` call attempts delivery to every registered
subscriber independently (the delivered set is exactly the subscribers whose
`send` does not fail, whatever the other subscribers do), removals are applied
to the registry only after all members were attempted (the new registry is
exactly the non-failing members), and with three subscribers of which exactly
one always fails closed, the other two are delivered to and remain. -/
theorem claim6_broadcast : ∀ (closed : ℕ → Bool) (clients : List ℕ),
    (broadcast closed clients).1 = clients.filter (fun c => !closed c) ∧
    (broadcast closed clients).2 = clients.filter (fun c => !closed c) ∧
    broadcast (fun c => decide (c = 3)) [1, 2, 3] = ([1, 2], [1, 2]) := by
  intro closed clients
  refine ⟨?_, ?_, ?_⟩
  · rw [broadcast_eq]
  · rw [broadcast_eq]
  · decide

/-! ## SpectralAnalyzer (lines 28-33 of `process_block`) -/

/-- `np.hamming(M)` at index `n`: `0.54 - 0.46*cos(2*pi*n/(M-1))` for `M ≥ 2`
(numpy special-cases `M = 1` to `[1.]`). -/
noncomputable def hamming (M n : ℕ) : ℝ :=
  if M = 1 then 1 else 0.54 - 0.46 * Real.cos (2 * Real.pi * (n : ℝ) / ((M : ℝ) - 1))

/-- The discrete Fourier transform of a real-valued list at bin `j`:
`X[j] = sum over n of x[n] * exp(-2*pi*i*j*n/N)`.  `np.fft.rfft` returns
exactly these values for `j = 0 .. N/2`. -/
noncomputable def dft (x : List ℝ) (j : ℕ) : ℂ :=
  ∑ n ∈ Finset.range x.length,
    ((x.getD n 0 : ℝ) : ℂ) *
      Complex.exp (-(2 * (Real.pi : ℂ) * Complex.I * (j : ℂ) * (n : ℂ)) / (x.length : ℂ))

/-- Line 28-29: `win = np.hamming(len(block))`, and the tapered block
`block * win`. -/
noncomputable def tapered (block : List ℝ) : List ℝ :=
  (List.range block.length).map (fun n => block.getD n 0 * hamming block.length n)

/-- Line 31: the bin-centre frequency `k[j] = j * FS / (2 * (len(P) - 1))`,
exact because the float quotient is compared, not accumulated.  `nb` is
`len(P) = len(block) // 2 + 1`. -/
def binFreq (nb j : ℕ) : ℚ := (j : ℚ) * (FS : ℚ) / (2 * ((nb - 1 : ℕ) : ℚ))

/-- Lines 28-33 of `process_block`: taper the block, take the real-input DFT
(`len(block) // 2 + 1` bins), take squared magnitudes, and sum the power of
the bins whose frequency lies in `[BETA_MIN_F, BETA_MAX_F]` inclusive. -/
noncomputable def beta_power (block : List ℝ) : ℝ :=
  ∑ j ∈ Finset.range (block.length / 2 + 1),
    if BETA_MIN_F ≤ binFreq (block.length / 2 + 1) j ∧
        binFreq (block.length / 2 + 1) j ≤ BETA_MAX_F
    then Complex.abs (dft (tapered block) j) ^ 2 else 0

/-- Lower edge of the target band as the spec names it (spec section 4.2: the
band is `[12, 30]`). -/
def BAND_MIN_F : ℚ := 12

/-- Upper edge of the target band as the spec names it. -/
def BAND_MAX_F : ℚ := 30

/-- The spec's bin-to-frequency map (spec section 4.2 step 4):
`f(k) = k * FS / (2 * (numBins - 1))`. -/
def binFreqSpec (numBins k : ℕ) : ℚ := (k : ℚ) * (FS : ℚ) / (2 * ((numBins - 1 : ℕ) : ℚ))

/-- The SpectralAnalyzer contract written from the spec's words (section 4.2):
apply a Hamming taper elementwise to the window; compute the DFT of the
tapered real-valued window, producing `numBins = WINDOW/2 + 1` complex bins;
compute power per bin as the squared magnitude; map bin `k` to frequency
`f(k) = k * FS / (2 * (numBins - 1))`; and sum the power of every bin whose
`f(k)` lies in `[BAND_MIN_F, BAND_MAX_F]` inclusive. -/
noncomputable def analyzeSpec (window : List ℝ) : ℝ :=
  ∑ k ∈ Finset.range (WINDOW / 2 + 1),
    if BAND_MIN_F ≤ binFreqSpec (WINDOW / 2 + 1) k ∧
        binFreqSpec (WINDOW / 2 + 1) k ≤ BAND_MAX_F
    then
      Complex.abs
        (dft ((List.range window.length).map
          (fun n => window.getD n 0 * hamming window.length n)) k) ^ 2
    else 0

/-- The full `process_block` (lines 27-39) over the reals, for reference:
the spectral part feeds the Normalizer logic.  `pyRoundR` is Python's
round-half-to-even on a real value. -/
noncomputable def pyRoundR (x : ℝ) : ℤ :=
  if x - ⌊x⌋ < 1/2 then ⌊x⌋
  else if 1/2 < x - ⌊x⌋ then ⌊x⌋ + 1
  else if Even ⌊x⌋ then ⌊x⌋ else ⌊x⌋ + 1

/-- `process_block(block, min_b, max_b)` (lines 27-39) over the reals. -/
noncomputable def process_block (block : List ℝ) (min_b max_b : Option ℝ) :
    Option ℤ × ℝ × ℝ :=
  let bp := beta_power block
  let m := match min_b with
    | none => bp
    | some x => min x bp
  let M := match max_b with
    | none => bp
    | some x => max x bp
  if M = m then (none, m, M)
  else (some (pyRoundR ((bp - m) / (M - m) * 100)), m, M)

/-- Claim C5: for a window of `WINDOW` samples, the band power computed by
`process_block` (lines 28-33) is exactly the SpectralAnalyzer algorithm the
spec describes: Hamming taper, real-input DFT with `numBins = WINDOW/2 + 1`
bins, squared-magnitude power, `f(k) = k * FS / (2 * (numBins - 1))`, summed
over the bins with `f(k)` in `[BAND_MIN_F, BAND_MAX_F]` inclusive. -/
theorem claim5_analyze : ∀ (w : List ℝ), w.length = WINDOW →
    beta_power w = analyzeSpec w := by
  intro w hw
  simp only [beta_power, analyzeSpec, tapered, binFreq, binFreqSpec,
    BETA_MIN_F, BETA_MAX_F, BAND_MIN_F, BAND_MAX_F, hw]

/-- Witness for C5 at the all-zero window of length `WINDOW`. -/
theorem claim5_analyze_witness :
    beta_power (List.replicate WINDOW (0 : ℝ)) = analyzeSpec (List.replicate WINDOW 0) :=
  claim5_analyze (List.replicate WINDOW 0) (by simp)

/-- Claim C8: the spectral analysis is pure and deterministic — it is a
function of the window alone, so identical windows always yield the identical
band power, with no hidden state affecting the result. -/
theorem claim8_deterministic : ∀ (w1 w2 : List ℝ), w1 = w2 →
    beta_power w1 = beta_power w2 := by
  intro w1 w2 h
  rw [h]

/-- Witness for C8 at a concrete window. -/
theorem claim8_deterministic_witness :
    beta_power (List.replicate WINDOW (0 : ℝ)) = beta_power (List.replicate WINDOW 0) :=
  claim8_deterministic (List.replicate WINDOW 0) (List.replicate WINDOW 0) rfl
